import Mathlib

/-!
# Verification of `transcribe_single_speaker.py`

A shallow embedding of the single-speaker transcription pipeline from
`src/transcribe_single_speaker.py`, together with theorems settling the
specification claims about it.

Modelling choices:

* The filesystem is a state `FS`: a map from path strings to `some mtime`
  (present, with a modification time) or `none` (absent), plus a `clock`.
  Writing a file stamps it with the current clock and advances the clock;
  a clock that strictly dominates every recorded mtime models wall-clock
  time moving forward.
* External effects are oracles passed in as parameters: the `ffmpeg`
  subprocess either succeeds (and produces the destination WAV) or exits
  non-zero (`subprocess.run(..., check=True)` raising), and
  `model.transcribe` either returns normally or raises.  Fallible steps
  return `Except`; a caught exception never shows up in a return type.
* The transcription stage has a second, uncaught failure site: the
  engine's segment sequence is produced lazily and consumed outside the
  `try`, so an exception raised during that consumption escapes
  `transcribe_audio`.  The refined `transcribe_audio_seg` models both
  sites with separate oracles; the call-level `transcribe_audio`
  coincides with it whenever the stream yields without raising.
* `ThreadPoolExecutor.map` is modelled in two complementary ways: its
  order-preserving result gather (`poolGather`, parametrised over an
  arbitrary completion order of the workers) and its submission-order
  effect sequence with fail-fast error propagation (`runConvPhase`).
-/

namespace Transcription

/-- Filesystem state: `mtime p = some m` means the file at path `p` exists
with modification time `m`; `none` means it is absent.  `clock` is the
current time, strictly later than every existing mtime in well-formed
states (`Inv`). -/
structure FS where
  mtime : String → Option Nat
  clock : Nat

/-- Writing (or overwriting) the file at `p`: it now exists with the
current clock as its modification time, and time advances. -/
def FS.write (σ : FS) (p : String) : FS :=
  ⟨fun q => if q = p then some σ.clock else σ.mtime q, σ.clock + 1⟩

/-- Well-formedness: the clock is strictly later than every recorded
modification time. -/
def Inv (σ : FS) : Prop :=
  ∀ p m, σ.mtime p = some m → m < σ.clock

/-- `needs_update(source, target)` (lines 56–61): `False` if the source
does not exist; `True` if the target does not exist; otherwise compares
modification times (`target.stat().st_mtime < source.stat().st_mtime`). -/
def needs_update (σ : FS) (source target : String) : Bool :=
  match σ.mtime source with
  | none => false
  | some ms =>
    match σ.mtime target with
    | none => true
    | some mt => decide (mt < ms)

/-- `_cpu_workers()` (lines 16–18): `max(1, min(cores, cores // 2 or 1))`,
where Python's `cores // 2 or 1` yields `1` when `cores // 2` is `0` and
`cores // 2` otherwise. -/
def _cpu_workers (cores : Nat) : Nat :=
  max 1 (min cores (if cores / 2 = 0 then 1 else cores / 2))

/-- A concrete filesystem used to instantiate theorems: the input audio
file exists (mtime 5), nothing else does, and the clock is at 10. -/
def fsA : FS :=
  ⟨fun p => if p = "resource/a.m4a" then some 5 else none, 10⟩

theorem fsA_inv : Inv fsA := by
  intro p m h
  by_cases hp : p = "resource/a.m4a"
  · simp [fsA, hp] at h ⊢
    omega
  · simp [fsA, hp] at h

/-- Claim C1: `needs_update S T` returns false whenever `S` is absent
(even when `T` is also absent); and when `S` is present it returns true
iff `T` is absent or `T`'s modification time is strictly earlier than
`S`'s. -/
theorem needs_update_spec (σ : FS) (s t : String) :
    (σ.mtime s = none → needs_update σ s t = false) ∧
    (∀ ms, σ.mtime s = some ms →
      (needs_update σ s t = true ↔
        (σ.mtime t = none ∨ ∃ mt, σ.mtime t = some mt ∧ mt < ms))) := by
  constructor
  · intro h
    simp [needs_update, h]
  · intro ms hs
    cases ht : σ.mtime t with
    | none => simp [needs_update, hs, ht]
    | some mt => simp [needs_update, hs, ht]

theorem needs_update_spec_witness :
    needs_update fsA "resource/a.m4a" "output/a.wav" = true :=
  ((needs_update_spec fsA "resource/a.m4a" "output/a.wav").2 5
    (by decide)).mpr (Or.inl (by decide))

/-- Claim C8: for every core count `c ≥ 1`, `_cpu_workers` equals
`max 1 (c / 2)`; it is at least 1, and equals `c / 2` exactly whenever
`c ≥ 2`. -/
theorem cpu_workers_spec (c : Nat) (h : 1 ≤ c) :
    _cpu_workers c = max 1 (c / 2) ∧
    1 ≤ _cpu_workers c ∧
    (2 ≤ c → _cpu_workers c = c / 2) := by
  have hle : c / 2 ≤ c := Nat.div_le_self c 2
  unfold _cpu_workers
  by_cases h0 : c / 2 = 0
  · simp [h0]
    omega
  · simp [h0]
    omega

theorem cpu_workers_spec_witness :
    _cpu_workers 8 = max 1 (8 / 2) ∧
    1 ≤ _cpu_workers 8 ∧
    (2 ≤ 8 → _cpu_workers 8 = 8 / 2) :=
  cpu_workers_spec 8 (by decide)

/-! ## Model loader (`load_model`, lines 21–53)

The engine constructor `WhisperModel(...)` is an external call; it is
modelled as an oracle `inst : String × String → Except E M` from a
`(device, compute_type)` candidate to either an instantiated engine or
the exception it raised.  `has_mps` is the result of the
`torch.backends.mps.is_available()` probe. -/

/-- The ordered candidate list built by `load_model`: the accelerated
`("mps", "int8_float16")` pair is appended first only when MPS is
available, then `("cpu", "int8")` unconditionally. -/
def attemptsList (has_mps : Bool) : List (String × String) :=
  (if has_mps then [("mps", "int8_float16")] else []) ++ [("cpu", "int8")]

/-- The `for device, compute_type in attempts` loop: return the first
successful instantiation; on failure remember the exception in
`last_error` and continue; when the list is exhausted raise a
`RuntimeError ... from last_error` (modelled as `Except.error` carrying
the chained `last_error`). -/
def tryAttempts {M E : Type} (inst : String × String → Except E M) :
    List (String × String) → Option E → Except (Option E) M
  | [], lastError => Except.error lastError
  | c :: rest, _ =>
    match inst c with
    | Except.ok m => Except.ok m
    | Except.error e => tryAttempts inst rest (some e)

/-- `load_model()`: build the candidate list from the MPS probe and run
the fallback loop with no error recorded yet. -/
def load_model {M E : Type} (has_mps : Bool)
    (inst : String × String → Except E M) : Except (Option E) M :=
  tryAttempts inst (attemptsList has_mps) none

/-- Claim C4: `load_model` tries `("mps", "int8_float16")` first exactly
when the accelerated backend is detected, then `("cpu", "int8")`
unconditionally; it returns the first successful instantiation
immediately (whatever later candidates would do), and it raises a fatal
error chaining the last underlying failure iff every candidate fails. -/
theorem load_model_spec {M E : Type} (inst : String × String → Except E M) :
    (attemptsList true = [("mps", "int8_float16"), ("cpu", "int8")] ∧
      attemptsList false = [("cpu", "int8")]) ∧
    (∀ m, inst ("mps", "int8_float16") = Except.ok m →
      load_model true inst = Except.ok m) ∧
    (∀ m, inst ("cpu", "int8") = Except.ok m →
      load_model false inst = Except.ok m) ∧
    (∀ e m, inst ("mps", "int8_float16") = Except.error e →
      inst ("cpu", "int8") = Except.ok m →
      load_model true inst = Except.ok m) ∧
    (∀ has_mps e, inst ("cpu", "int8") = Except.error e →
      (∀ c ∈ attemptsList has_mps, ∃ e2, inst c = Except.error e2) →
      load_model has_mps inst = Except.error (some e)) ∧
    (∀ has_mps err, load_model has_mps inst = Except.error err →
      ∀ c ∈ attemptsList has_mps, ∃ e2, inst c = Except.error e2) := by
  refine ⟨⟨rfl, rfl⟩, ?_, ?_, ?_, ?_, ?_⟩
  · intro m h
    simp [load_model, attemptsList, tryAttempts, h]
  · intro m h
    simp [load_model, attemptsList, tryAttempts, h]
  · intro e m he hok
    simp [load_model, attemptsList, tryAttempts, he, hok]
  · intro has_mps e hcpu hall
    cases has_mps
    · simp [load_model, attemptsList, tryAttempts, hcpu]
    · obtain ⟨e1, he1⟩ := hall ("mps", "int8_float16") (by simp [attemptsList])
      simp [load_model, attemptsList, tryAttempts, he1, hcpu]
  · intro has_mps err herr c hc
    cases has_mps
    · simp [attemptsList] at hc
      subst hc
      cases h1 : inst ("cpu", "int8") with
      | ok m => simp [load_model, attemptsList, tryAttempts, h1] at herr
      | error e => exact ⟨e, rfl⟩
    · simp [attemptsList] at hc
      rcases hc with hc | hc
      all_goals subst hc
      · cases h1 : inst ("mps", "int8_float16") with
        | ok m => simp [load_model, attemptsList, tryAttempts, h1] at herr
        | error e => exact ⟨e, rfl⟩
      · cases h1 : inst ("cpu", "int8") with
        | ok m =>
          cases h2 : inst ("mps", "int8_float16") with
          | ok m2 => simp [load_model, attemptsList, tryAttempts, h2] at herr
          | error e2 => simp [load_model, attemptsList, tryAttempts, h1, h2] at herr
        | error e => exact ⟨e, rfl⟩

/-- A concrete instantiation oracle: MPS fails with a runtime message,
CPU succeeds with engine `0`. -/
def instA : String × String → Except String Nat :=
  fun c => if c.1 = "cpu" then Except.ok 0 else Except.error "unsupported"

theorem load_model_spec_witness :
    load_model true instA = Except.ok 0 :=
  (load_model_spec instA).2.2.2.1 "unsupported" 0 rfl rfl

/-! ## Path derivation (`pathlib` fragments used by the script)

`Path.stem` is the final path component without its last suffix, and
`Path.with_suffix` swaps that suffix; the script uses them to derive
`output/<stem>.wav` and then the `.txt` sibling. -/

/-- Split a character list at every occurrence of a separator character
(the semantics of Python's `str.split(sep)` for a one-character
separator, written structurally so that it evaluates). -/
def splitChar (sep : Char) : List Char → List (List Char)
  | [] => [[]]
  | c :: rest =>
    let r := splitChar sep rest
    if c = sep then [] :: r
    else
      match r with
      | [] => [[c]]
      | h :: t => (c :: h) :: t

/-- Rejoin components with a separator character (inverse of
`splitChar`). -/
def joinChar (sep : Char) : List (List Char) → List Char
  | [] => []
  | [x] => x
  | x :: rest => x ++ sep :: joinChar sep rest

/-- The final component of a path (text after the last `/`). -/
def baseName (p : String) : String :=
  ⟨(splitChar '/' p.data).getLastD []⟩

/-- `Path(name).stem` for a bare file name: the name without its last
suffix.  A leading-dot name such as `.bashrc` has no suffix. -/
def stemName (name : String) : String :=
  match splitChar '.' name.data with
  | [] => name
  | [_] => name
  | [] :: rest =>
    if rest.length ≤ 1 then name
    else ⟨joinChar '.' (([] :: rest).dropLast)⟩
  | parts => ⟨joinChar '.' parts.dropLast⟩

/-- `Path(p).with_suffix(suf)`: same directory, stem kept, suffix
replaced. -/
def withSuffix (p suf : String) : String :=
  let parts := splitChar '/' p.data
  ⟨joinChar '/' (parts.dropLast ++ [(stemName ⟨parts.getLastD []⟩).data ++ suf.data])⟩

/-- The WAV path `_prepare_wav` derives for an input file
(line 132): `OUTPUT_DIR / f"<stem>.wav"`. -/
def _prepare_wav_path (m4a : String) : String :=
  "output/" ++ stemName (baseName m4a) ++ ".wav"

/-- The transcript path `main` derives for a WAV path (line 125):
`wav_path.with_suffix(".txt")`. -/
def txtPathOf (wav : String) : String :=
  withSuffix wav ".txt"

/-! ## Incremental conversion stage (`convert_m4a_to_wav`, lines 64–81)

The `ffmpeg` subprocess is an oracle `ffok : String → Bool` telling
whether the decode of a given input file exits with status zero
(`subprocess.run(..., check=True)` raises on non-zero exit, modelled as
`Except.error ()`).  The returned triple on success is the state, a flag
recording whether a conversion was actually performed (the `✔ Converted`
branch), and the returned path. -/

/-- `convert_m4a_to_wav(m4a_path, wav_path)`: skip (returning `wav_path`
unchanged) when `needs_update` is false; otherwise run `ffmpeg`,
overwriting the destination, and propagate a non-zero exit as an
uncaught exception. -/
def convert_m4a_to_wav (ffok : String → Bool) (σ : FS) (m4a_path wav_path : String) :
    Except Unit (FS × Bool × String) :=
  if needs_update σ m4a_path wav_path = false then
    Except.ok (σ, false, wav_path)
  else if ffok m4a_path then
    Except.ok (σ.write wav_path, true, wav_path)
  else
    Except.error ()

/-- Claim C2 counterexample: it is not true that `convert_m4a_to_wav`
converts whenever the destination is missing — with both source and
destination absent the freshness check returns false and the function
skips, performing no conversion. -/
theorem convert_missing_dst_cex :
    ¬ (∀ (ffok : String → Bool) (σ : FS) (m4a_path wav_path : String),
        σ.mtime wav_path = none →
        ∃ σ2, convert_m4a_to_wav ffok σ m4a_path wav_path =
          Except.ok (σ2, true, wav_path)) := by
  intro h
  obtain ⟨σ2, h2⟩ :=
    h (fun _ => true) ⟨fun _ => none, 0⟩ "resource/a.m4a" "output/a.wav" rfl
  simp [convert_m4a_to_wav, needs_update] at h2

/-- Claim C2 (amended): provided the source exists, `convert_m4a_to_wav`
converts (invoking the decoder, overwriting the destination) whenever the
destination is missing; it skips, returning the destination path with the
state unchanged, whenever the source is absent or the destination exists
and is not older than the source; and it reconverts otherwise. -/
theorem convert_m4a_to_wav_spec (ffok : String → Bool) (σ : FS)
    (m4a_path wav_path : String) (hff : ffok m4a_path = true) :
    (∀ ms, σ.mtime m4a_path = some ms → σ.mtime wav_path = none →
      convert_m4a_to_wav ffok σ m4a_path wav_path =
        Except.ok (σ.write wav_path, true, wav_path)) ∧
    (σ.mtime m4a_path = none →
      convert_m4a_to_wav ffok σ m4a_path wav_path =
        Except.ok (σ, false, wav_path)) ∧
    (∀ ms mt, σ.mtime m4a_path = some ms → σ.mtime wav_path = some mt →
      ms ≤ mt →
      convert_m4a_to_wav ffok σ m4a_path wav_path =
        Except.ok (σ, false, wav_path)) ∧
    (∀ ms mt, σ.mtime m4a_path = some ms → σ.mtime wav_path = some mt →
      mt < ms →
      convert_m4a_to_wav ffok σ m4a_path wav_path =
        Except.ok (σ.write wav_path, true, wav_path)) := by
  refine ⟨?_, ?_, ?_, ?_⟩
  · intro ms hs ht
    simp [convert_m4a_to_wav, needs_update, hs, ht, hff]
  · intro hs
    simp [convert_m4a_to_wav, needs_update, hs]
  · intro ms mt hs ht hle
    simp [convert_m4a_to_wav, needs_update, hs, ht]
    omega
  · intro ms mt hs ht hlt
    simp [convert_m4a_to_wav, needs_update, hs, ht, hlt, hff]

theorem convert_m4a_to_wav_spec_witness :
    convert_m4a_to_wav (fun _ => true) fsA "resource/a.m4a" "output/a.wav" =
      Except.ok (fsA.write "output/a.wav", true, "output/a.wav") :=
  (convert_m4a_to_wav_spec (fun _ => true) fsA "resource/a.m4a" "output/a.wav"
    rfl).1 5 (by decide) (by decide)

/-! ## Transcription stage (`transcribe_audio`, lines 84–105)

The stage has two distinct failure sites.  The `model.transcribe(...)`
call at lines 89–96 sits inside the `try`, and its raised exception is
caught at line 97.  The sequence of segments it returns, however, is
produced lazily by the engine and is only consumed by the `for segment
in segments` loop at lines 103–104, inside the `with open` block and
outside the `try`: an exception raised there escapes `transcribe_audio`.
The call site is the oracle `mok : String → Bool` (call returns
normally, or raises); the stream site is the oracle `sok` of the refined
`transcribe_audio_seg` below.

`transcribe_audio` here is the call-level view with the stream
consumption assumed to complete: it is the fragment of the stage on
which the skip path, the caught-call path, and all-successful runs
depend, and `transcribe_audio_seg_agrees` shows it coincides with the
refined model whenever the stream does not raise. -/

/-- `transcribe_audio(wav_path, txt_path, model)`, call-level view:
return immediately when the freshness check fails; otherwise call the
model inside `try/except` — on an exception log and return with nothing
written, on success open the transcript for writing and write it (the
segment stream assumed to yield without raising; see
`transcribe_audio_seg` for the raising stream). -/
def transcribe_audio (mok : String → Bool) (σ : FS) (wav_path txt_path : String) :
    FS × Bool × Bool :=
  if needs_update σ wav_path txt_path = false then
    (σ, false, false)
  else if mok wav_path then
    (σ.write txt_path, true, true)
  else
    (σ, true, false)

/-- The `for wav_path in conversions` loop of `main` (lines 124–126):
fold `transcribe_audio` over the gathered WAV list in order, counting
model invocations and recording the `(wav, txt)` pairs visited in
processing order. -/
def runTransPhase (mok : String → Bool) (σ : FS) :
    List String → FS × Nat × List (String × String)
  | [] => (σ, 0, [])
  | w :: rest =>
    let txt := txtPathOf w
    let r := transcribe_audio mok σ w txt
    let rec2 := runTransPhase mok r.1 rest
    (rec2.1, (if r.2.1 then 1 else 0) + rec2.2.1, (w, txt) :: rec2.2.2)

/-- A model oracle that raises on every file. -/
def mokFail : String → Bool := fun _ => false

/-- Claim C9: when the `model.transcribe` call raises, `transcribe_audio`
returns with the filesystem completely unchanged — in particular the
target transcript file is neither created, truncated, nor modified,
because the output file is only opened for writing after the call has
returned without raising. -/
theorem transcribe_error_leaves_txt_unchanged (mok : String → Bool) (σ : FS)
    (wav_path txt_path : String) (hfail : mok wav_path = false) :
    (transcribe_audio mok σ wav_path txt_path).1 = σ ∧
    (transcribe_audio mok σ wav_path txt_path).1.mtime txt_path =
      σ.mtime txt_path := by
  by_cases h : needs_update σ wav_path txt_path = false
  · simp [transcribe_audio, h]
  · simp [transcribe_audio, h, hfail]

theorem transcribe_error_leaves_txt_unchanged_witness :
    (transcribe_audio mokFail fsA "resource/a.m4a" "output/a.txt").1 = fsA ∧
    (transcribe_audio mokFail fsA "resource/a.m4a" "output/a.txt").1.mtime
      "output/a.txt" = fsA.mtime "output/a.txt" :=
  transcribe_error_leaves_txt_unchanged mokFail fsA "resource/a.m4a"
    "output/a.txt" rfl

/-- Claim C10: when the WAV file does not exist, `transcribe_audio`
returns immediately — the model is not invoked, no file is written, and
the state is unchanged (a missing WAV is silently skipped, not reported
as an error). -/
theorem transcribe_missing_wav_skips (mok : String → Bool) (σ : FS)
    (wav_path txt_path : String) (habs : σ.mtime wav_path = none) :
    transcribe_audio mok σ wav_path txt_path = (σ, false, false) := by
  simp [transcribe_audio, needs_update, habs]

theorem transcribe_missing_wav_skips_witness :
    transcribe_audio (fun _ => true) fsA "output/missing.wav" "output/missing.txt" =
      (fsA, false, false) :=
  transcribe_missing_wav_skips (fun _ => true) fsA "output/missing.wav"
    "output/missing.txt" (by decide)

/-! ### The lazily produced segment stream (refined model of lines 84–105)

`sok : String → Bool` tells whether consuming the engine's lazily
produced segment stream for a given WAV completes, or raises mid-stream.
On the raising path the transcript has already been opened with mode
`"w"` at line 101 — created or truncated, header written — before the
`for segment in segments` loop raises, so the raise leaves a freshly
stamped partial transcript behind and escapes `transcribe_audio`. -/

/-- Outcome of one `transcribe_audio` activation: either the function
returns normally (state, model invoked?, transcript fully written?), or
an exception escapes it (with the state as the exception passes). -/
inductive TranscribeResult where
  | done : FS → Bool → Bool → TranscribeResult
  | raised : FS → TranscribeResult

/-- `transcribe_audio(wav_path, txt_path, model)` with both failure
sites: freshness gate; `model.transcribe` inside `try` (a raise is
caught: log, return); open the transcript for writing and consume the
segment stream — a raise during consumption escapes uncaught. -/
def transcribe_audio_seg (mok sok : String → Bool) (σ : FS)
    (wav_path txt_path : String) : TranscribeResult :=
  if needs_update σ wav_path txt_path = false then
    TranscribeResult.done σ false false
  else if mok wav_path = false then
    TranscribeResult.done σ true false
  else if sok wav_path = true then
    TranscribeResult.done (σ.write txt_path) true true
  else
    TranscribeResult.raised (σ.write txt_path)

/-- The `for wav_path in conversions` loop of `main` over the refined
stage: an exception escaping `transcribe_audio` propagates out of the
loop (no handler in `main`), so the remaining files are never visited;
the result records the final state and the files visited in order. -/
def runTransPhaseSeg (mok sok : String → Bool) (σ : FS) :
    List String → Except FS (FS × List String)
  | [] => Except.ok (σ, [])
  | w :: rest =>
    match transcribe_audio_seg mok sok σ w (txtPathOf w) with
    | TranscribeResult.raised σ1 => Except.error σ1
    | TranscribeResult.done σ1 _ _ =>
      match runTransPhaseSeg mok sok σ1 rest with
      | Except.error σe => Except.error σe
      | Except.ok (σ2, vs) => Except.ok (σ2, w :: vs)

/-- Whenever the segment stream yields without raising, the refined
stage coincides with the call-level `transcribe_audio`. -/
theorem transcribe_audio_seg_agrees (mok sok : String → Bool) (σ : FS)
    (wav_path txt_path : String) (hsok : sok wav_path = true) :
    transcribe_audio_seg mok sok σ wav_path txt_path =
      TranscribeResult.done (transcribe_audio mok σ wav_path txt_path).1
        (transcribe_audio mok σ wav_path txt_path).2.1
        (transcribe_audio mok σ wav_path txt_path).2.2 := by
  unfold transcribe_audio_seg transcribe_audio
  by_cases h : needs_update σ wav_path txt_path = false
  · simp [h]
  · by_cases hm : mok wav_path = false
    · simp [h, hm]
    · simp [h, hm, hsok]

/-- A filesystem where the derived WAV exists (mtime 5) but no
transcript does; clock at 10. -/
def fsW : FS :=
  ⟨fun p => if p = "output/a.wav" then some 5 else none, 10⟩

/-- Claim C3 counterexample: it is not true that any exception raised
during transcription of a file is caught inside `transcribe_audio`,
which then returns without raising — with the `model.transcribe` call
returning normally and the lazily produced segment stream raising during
consumption, `transcribe_audio` does not return: the exception escapes
(first conjunct), and concretely the loop aborts with the second file
never processed (second conjunct). -/
theorem transcribe_lazy_raise_cex :
    (¬ ∀ (mok sok : String → Bool) (σ : FS) (wav_path txt_path : String),
        ∃ σ2 invoked wrote,
          transcribe_audio_seg mok sok σ wav_path txt_path =
            TranscribeResult.done σ2 invoked wrote) ∧
    runTransPhaseSeg (fun _ => true) (fun _ => false) fsW
      ["output/a.wav", "output/b.wav"] =
      Except.error (fsW.write "output/a.txt") := by
  have hup : needs_update fsW "output/a.wav" "output/a.txt" = true := by decide
  have htxt : txtPathOf "output/a.wav" = "output/a.txt" := by decide
  constructor
  · intro h
    obtain ⟨σ2, invoked, wrote, h2⟩ :=
      h (fun _ => true) (fun _ => false) fsW "output/a.wav" "output/a.txt"
    simp [transcribe_audio_seg, hup] at h2
  · have hstep : transcribe_audio_seg (fun _ => true) (fun _ => false) fsW
        "output/a.wav" (txtPathOf "output/a.wav") =
        TranscribeResult.raised (fsW.write "output/a.txt") := by
      rw [htxt]
      simp [transcribe_audio_seg, hup]
    simp [runTransPhaseSeg, hstep]

/-- Claim C3 (amended): an exception raised by the `model.transcribe`
call itself is caught and logged inside `transcribe_audio`, which
returns normally with the state unchanged, and the subsequent files are
processed exactly as they would have been from the same state; but an
exception raised while consuming the lazily produced segment stream —
iterated outside the `try`, during transcript writing — propagates
uncaught out of `transcribe_audio` and aborts processing of all
subsequent files. -/
theorem transcribe_failure_spec (mok sok : String → Bool) (σ : FS)
    (w : String) (rest : List String) :
    (mok w = false →
      transcribe_audio_seg mok sok σ w (txtPathOf w) =
        TranscribeResult.done σ (needs_update σ w (txtPathOf w)) false ∧
      runTransPhaseSeg mok sok σ (w :: rest) =
        Except.map (fun p => (p.1, w :: p.2)) (runTransPhaseSeg mok sok σ rest)) ∧
    (needs_update σ w (txtPathOf w) = true → mok w = true → sok w = false →
      runTransPhaseSeg mok sok σ (w :: rest) =
        Except.error (σ.write (txtPathOf w))) := by
  constructor
  · intro hm
    have hstep : transcribe_audio_seg mok sok σ w (txtPathOf w) =
        TranscribeResult.done σ (needs_update σ w (txtPathOf w)) false := by
      cases hup : needs_update σ w (txtPathOf w) with
      | false => simp [transcribe_audio_seg, hup]
      | true => simp [transcribe_audio_seg, hup, hm]
    refine ⟨hstep, ?_⟩
    cases hr : runTransPhaseSeg mok sok σ rest with
    | error σe => simp [runTransPhaseSeg, hstep, hr, Except.map]
    | ok r =>
      obtain ⟨σ2, vs⟩ := r
      simp [runTransPhaseSeg, hstep, hr, Except.map]
  · intro hup hm hs
    have hstep : transcribe_audio_seg mok sok σ w (txtPathOf w) =
        TranscribeResult.raised (σ.write (txtPathOf w)) := by
      simp [transcribe_audio_seg, hup, hm, hs]
    simp [runTransPhaseSeg, hstep]

theorem transcribe_failure_spec_witness :
    (transcribe_audio_seg mokFail mokFail fsW "output/a.wav"
        (txtPathOf "output/a.wav") =
      TranscribeResult.done fsW
        (needs_update fsW "output/a.wav" (txtPathOf "output/a.wav")) false) ∧
    runTransPhaseSeg (fun _ => true) mokFail fsW ["output/a.wav"] =
      Except.error (fsW.write (txtPathOf "output/a.wav")) :=
  ⟨((transcribe_failure_spec mokFail mokFail fsW "output/a.wav" []).1 rfl).1,
    (transcribe_failure_spec (fun _ => true) mokFail fsW "output/a.wav" []).2
      (by decide) rfl rfl⟩

/-! ## Conversion pool and orchestrator (`main` and `_prepare_wav`,
lines 108–134)

`pool.map(_prepare_wav, m4a_files)` gathers results in submission order;
its effects are modelled in submission order with the pool's fail-fast
error propagation (an exception in one task surfaces when its result is
gathered and aborts the loop in `main`).  `main` is modelled from the
point where the engine is loaded; `m4a_files` stands for the sorted
`INPUT_DIR.glob("*.m4a")` listing, and model loading is `load_model`
above. -/

/-- `_prepare_wav(m4a_path)` (lines 131–134): derive the WAV path and
run the conversion stage on it. -/
def _prepare_wav (ffok : String → Bool) (σ : FS) (m4a_path : String) :
    Except Unit (FS × Bool × String) :=
  convert_m4a_to_wav ffok σ m4a_path (_prepare_wav_path m4a_path)

/-- The conversion pool over the input list: each file's conversion in
submission order, counting performed conversions and collecting the
returned WAV paths; an uncaught conversion exception aborts the fold. -/
def runConvPhase (ffok : String → Bool) (σ : FS) :
    List String → Except Unit (FS × Nat × List String)
  | [] => Except.ok (σ, 0, [])
  | f :: rest =>
    match _prepare_wav ffok σ f with
    | Except.error e => Except.error e
    | Except.ok (σ1, b, w) =>
      match runConvPhase ffok σ1 rest with
      | Except.error e => Except.error e
      | Except.ok (σ2, n, ws) => Except.ok (σ2, (if b then 1 else 0) + n, w :: ws)

/-- `main()` (lines 108–128) after the engine is loaded: early return
when no input files are found; otherwise run the conversion pool, then
transcribe each gathered WAV in order.  Returns the final state with the
number of conversions and of model invocations performed. -/
def mainModel (ffok mok : String → Bool) (σ : FS) (m4a_files : List String) :
    Except Unit (FS × Nat × Nat) :=
  if m4a_files = [] then Except.ok (σ, 0, 0)
  else
    match runConvPhase ffok σ m4a_files with
    | Except.error e => Except.error e
    | Except.ok (σ1, nconv, conversions) =>
      let t := runTransPhase mok σ1 conversions
      Except.ok (t.1, nconv, t.2.1)

/-- Claim C7: a non-zero exit of the external conversion process raises
an error that `convert_m4a_to_wav` does not catch; that error propagates
out of the conversion pool — the files submitted after the failing one
are never processed (the result does not depend on them) — and aborts
the run (`main` returns the error). -/
theorem conv_failure_aborts (ffok mok : String → Bool) :
    (∀ σ m4a_path wav_path, needs_update σ m4a_path wav_path = true →
      ffok m4a_path = false →
      convert_m4a_to_wav ffok σ m4a_path wav_path = Except.error ()) ∧
    (∀ σ pre post e, runConvPhase ffok σ pre = Except.error e →
      runConvPhase ffok σ (pre ++ post) = Except.error e) ∧
    (∀ σ files e, runConvPhase ffok σ files = Except.error e →
      mainModel ffok mok σ files = Except.error e) := by
  refine ⟨?_, ?_, ?_⟩
  · intro σ m4a_path wav_path hup hff
    simp [convert_m4a_to_wav, hup, hff]
  · intro σ pre post e h
    cases e
    induction pre generalizing σ with
    | nil => simp [runConvPhase] at h
    | cons f rest ih =>
      cases hp : _prepare_wav ffok σ f with
      | error e2 =>
        cases e2
        simp only [List.cons_append, runConvPhase, hp]
      | ok r =>
        obtain ⟨σ1, b, w⟩ := r
        simp only [runConvPhase, hp] at h
        cases hr : runConvPhase ffok σ1 rest with
        | error e2 =>
          cases e2
          simp only [List.cons_append, runConvPhase, hp, List.append_eq]
          rw [ih σ1 hr]
        | ok r2 =>
          obtain ⟨σ2, n, ws⟩ := r2
          rw [hr] at h
          simp at h
  · intro σ files e h
    cases files with
    | nil => simp [runConvPhase] at h
    | cons f rest =>
      simp only [mainModel, if_neg (List.cons_ne_nil f rest)]
      rw [h]

theorem conv_failure_aborts_witness :
    mainModel (fun _ => false) (fun _ => true) fsA ["resource/a.m4a"] =
      Except.error () :=
  (conv_failure_aborts (fun _ => false) (fun _ => true)).2.2 fsA
    ["resource/a.m4a"] () (by
      have h : needs_update fsA "resource/a.m4a" (_prepare_wav_path "resource/a.m4a") = true := by
        decide
      simp [runConvPhase, _prepare_wav, convert_m4a_to_wav, h])

/-! ## Order-preserving gather of the conversion pool

`ThreadPoolExecutor.map` yields results in submission order even though
worker completion order is unspecified.  `poolGather` models this
explicitly: the workers complete in an arbitrary order `execOrder`
(a permutation of the task indices), producing `(index, result)`
completion records; the gather then reads the results back in submission
order.  The per-task result is `_prepare_wav`'s returned WAV path, which
depends only on the input path. -/

/-- Gather of `pool.map(_prepare_wav, m4a_files)` under completion order
`execOrder`: completion records paired with their submission index, read
back in submission index order. -/
def poolGather (m4a_files : List String) (execOrder : List Nat) : List String :=
  let completions := execOrder.filterMap
    (fun i => (m4a_files[i]?).map (fun f => (i, _prepare_wav_path f)))
  (List.range m4a_files.length).filterMap
    (fun i => (completions.find? (fun p => p.1 == i)).map (fun p => p.2))

theorem poolGather_find (m4a_files : List String) (i : Nat) (f : String)
    (hget : m4a_files[i]? = some f) :
    ∀ execOrder : List Nat, i ∈ execOrder →
      (execOrder.filterMap
        (fun j => (m4a_files[j]?).map (fun g => (j, _prepare_wav_path g)))).find?
          (fun p => p.1 == i) = some (i, _prepare_wav_path f) := by
  intro execOrder
  induction execOrder with
  | nil => intro h; simp at h
  | cons j rest ih =>
    intro hmem
    by_cases hij : j = i
    · subst hij
      rw [List.filterMap_cons_some (by rw [hget]; rfl)]
      exact List.find?_cons_of_pos _ (by simp)
    · have hrest : i ∈ rest := by
        rcases List.mem_cons.mp hmem with h | h
        · exact absurd h.symm hij
        · exact h
      cases hj : m4a_files[j]? with
      | none =>
        rw [List.filterMap_cons_none (by rw [hj]; rfl)]
        exact ih hrest
      | some g =>
        rw [List.filterMap_cons_some (by rw [hj]; rfl)]
        rw [List.find?_cons_of_neg _ (by simp [hij])]
        exact ih hrest

theorem filterMap_congr_some {α β : Type} (g : α → Option β) (hf : α → β) :
    ∀ l : List α, (∀ a ∈ l, g a = some (hf a)) → l.filterMap g = l.map hf := by
  intro l
  induction l with
  | nil => intro _; simp
  | cons a rest ih =>
    intro h
    rw [List.filterMap_cons, h a (List.mem_cons_self a rest), List.map_cons,
      ih (fun b hb => h b (List.mem_cons_of_mem a hb))]

theorem runTransPhase_visits (mok : String → Bool) (σ : FS) :
    ∀ ws : List String,
      (runTransPhase mok σ ws).2.2 = ws.map (fun w => (w, txtPathOf w)) := by
  intro ws
  induction ws generalizing σ with
  | nil => simp [runTransPhase]
  | cons w rest ih => simp [runTransPhase, ih]

/-- Claim C6: whatever order the pool's workers complete in (any
permutation of the submitted task indices), the gathered WAV path list
equals the input file list mapped through `_prepare_wav`'s path
derivation, element for element; and the transcription loop then visits
exactly that list in that order. -/
theorem pool_gather_order (m4a_files : List String) (execOrder : List Nat)
    (mok : String → Bool) (σ : FS)
    (hperm : List.Perm execOrder (List.range m4a_files.length)) :
    poolGather m4a_files execOrder = m4a_files.map _prepare_wav_path ∧
    (runTransPhase mok σ (poolGather m4a_files execOrder)).2.2 =
      (m4a_files.map _prepare_wav_path).map (fun w => (w, txtPathOf w)) := by
  have hmem : ∀ i, i < m4a_files.length → i ∈ execOrder := by
    intro i hi
    exact hperm.mem_iff.mpr (List.mem_range.mpr hi)
  have hmain : poolGather m4a_files execOrder = m4a_files.map _prepare_wav_path := by
    unfold poolGather
    have h1 : ∀ i ∈ List.range m4a_files.length,
        ((execOrder.filterMap
          (fun j => (m4a_files[j]?).map (fun g => (j, _prepare_wav_path g)))).find?
            (fun p => p.1 == i)).map (fun p => p.2) =
          some (_prepare_wav_path (m4a_files[i]?.getD "")) := by
      intro i hi
      have hlt : i < m4a_files.length := List.mem_range.mp hi
      have hf : m4a_files[i]? = some m4a_files[i] := List.getElem?_eq_getElem hlt
      rw [poolGather_find m4a_files i _ hf execOrder (hmem i hlt)]
      simp [hf]
    rw [filterMap_congr_some _ (fun i => _prepare_wav_path (m4a_files[i]?.getD ""))
      (List.range m4a_files.length) h1]
    apply List.ext_getElem
    · simp
    · intro n h1n h2n
      have h2 : n < m4a_files.length := by simpa using h2n
      simp [List.getElem?_eq_getElem h2]
  exact ⟨hmain, by rw [hmain, runTransPhase_visits]⟩

theorem pool_gather_order_witness :
    poolGather ["resource/a.m4a", "resource/b.m4a"] [1, 0] =
      ["resource/a.m4a", "resource/b.m4a"].map _prepare_wav_path ∧
    (runTransPhase mokFail fsA
      (poolGather ["resource/a.m4a", "resource/b.m4a"] [1, 0])).2.2 =
      (["resource/a.m4a", "resource/b.m4a"].map _prepare_wav_path).map
        (fun w => (w, txtPathOf w)) :=
  pool_gather_order ["resource/a.m4a", "resource/b.m4a"] [1, 0] mokFail fsA
    (by decide)

/-! ## Idempotence of the pipeline

For a run in which every external call succeeds, the two phases are the
total functions `convRun` and `transRun` below; `runConvPhase` and
`runTransPhase` reduce to them.  The second-run theorem then shows both
phases turn into pure skips. -/

/-- One successful conversion step: skip, or write the WAV. -/
def convStep (σ : FS) (f : String) : FS × Bool :=
  if needs_update σ f (_prepare_wav_path f) = false then (σ, false)
  else (σ.write (_prepare_wav_path f), true)

/-- The conversion phase when `ffmpeg` always succeeds: final state and
number of conversions performed. -/
def convRun (σ : FS) : List String → FS × Nat
  | [] => (σ, 0)
  | f :: rest =>
    let s := convStep σ f
    let r := convRun s.1 rest
    (r.1, (if s.2 then 1 else 0) + r.2)

/-- One successful transcription step: skip, or write the transcript. -/
def transStep (σ : FS) (w : String) : FS × Bool :=
  if needs_update σ w (txtPathOf w) = false then (σ, false)
  else (σ.write (txtPathOf w), true)

/-- The transcription phase when the model always succeeds: final state
and number of model invocations. -/
def transRun (σ : FS) : List String → FS × Nat
  | [] => (σ, 0)
  | w :: rest =>
    let s := transStep σ w
    let r := transRun s.1 rest
    (r.1, (if s.2 then 1 else 0) + r.2)

theorem runConvPhase_eq_convRun (ffok : String → Bool) (hff : ∀ f, ffok f = true)
    (σ : FS) (files : List String) :
    runConvPhase ffok σ files =
      Except.ok ((convRun σ files).1, (convRun σ files).2,
        files.map _prepare_wav_path) := by
  induction files generalizing σ with
  | nil => simp [runConvPhase, convRun]
  | cons f rest ih =>
    by_cases h : needs_update σ f (_prepare_wav_path f) = false
    · have hp : _prepare_wav ffok σ f = Except.ok (σ, false, _prepare_wav_path f) := by
        simp [_prepare_wav, convert_m4a_to_wav, h]
      simp [runConvPhase, hp, ih σ, convRun, convStep, h]
    · have hp : _prepare_wav ffok σ f =
          Except.ok (σ.write (_prepare_wav_path f), true, _prepare_wav_path f) := by
        simp [_prepare_wav, convert_m4a_to_wav, h, hff f]
      simp [runConvPhase, hp, ih (σ.write (_prepare_wav_path f)), convRun, convStep, h]

theorem runTransPhase_eq_transRun (mok : String → Bool) (hmok : ∀ w, mok w = true)
    (σ : FS) (ws : List String) :
    (runTransPhase mok σ ws).1 = (transRun σ ws).1 ∧
    (runTransPhase mok σ ws).2.1 = (transRun σ ws).2 := by
  induction ws generalizing σ with
  | nil => simp [runTransPhase, transRun]
  | cons w rest ih =>
    by_cases h : needs_update σ w (txtPathOf w) = false
    · have hs : transcribe_audio mok σ w (txtPathOf w) = (σ, false, false) := by
        simp [transcribe_audio, h]
      constructor
      · simp [runTransPhase, hs, transRun, transStep, h, (ih σ).1]
      · simp [runTransPhase, hs, transRun, transStep, h, (ih σ).2]
    · have hs : transcribe_audio mok σ w (txtPathOf w) =
          (σ.write (txtPathOf w), true, true) := by
        simp [transcribe_audio, h, hmok w]
      constructor
      · simp [runTransPhase, hs, transRun, transStep, h,
          (ih (σ.write (txtPathOf w))).1]
      · simp [runTransPhase, hs, transRun, transStep, h,
          (ih (σ.write (txtPathOf w))).2]

theorem mainModel_eq (ffok mok : String → Bool) (hff : ∀ f, ffok f = true)
    (hmok : ∀ w, mok w = true) (σ : FS) (files : List String) :
    mainModel ffok mok σ files =
      Except.ok ((transRun (convRun σ files).1 (files.map _prepare_wav_path)).1,
        (convRun σ files).2,
        (transRun (convRun σ files).1 (files.map _prepare_wav_path)).2) := by
  cases files with
  | nil => simp [mainModel, convRun, transRun]
  | cons f rest =>
    rw [mainModel, if_neg (by simp)]
    rw [runConvPhase_eq_convRun ffok hff]
    have h := runTransPhase_eq_transRun mok hmok (convRun σ (f :: rest)).1
      ((f :: rest).map _prepare_wav_path)
    simp only []
    rw [h.1, h.2]

/-! Frame and invariant lemmas for the two phases. -/

theorem write_mtime_self (σ : FS) (p : String) :
    (σ.write p).mtime p = some σ.clock := by
  simp [FS.write]

theorem write_mtime_other (σ : FS) (p q : String) (h : q ≠ p) :
    (σ.write p).mtime q = σ.mtime q := by
  simp [FS.write, h]

theorem write_clock (σ : FS) (p : String) : (σ.write p).clock = σ.clock + 1 :=
  rfl

theorem inv_write (σ : FS) (p : String) (h : Inv σ) : Inv (σ.write p) := by
  intro q m hq
  rw [write_clock]
  by_cases hqp : q = p
  · rw [hqp, write_mtime_self] at hq
    have hm : m = σ.clock := (Option.some.inj hq).symm
    omega
  · rw [write_mtime_other _ _ _ hqp] at hq
    have := h q m hq
    omega

theorem needs_update_congr (σ σ2 : FS) (s t : String)
    (hs : σ2.mtime s = σ.mtime s) (ht : σ2.mtime t = σ.mtime t) :
    needs_update σ2 s t = needs_update σ s t := by
  simp [needs_update, hs, ht]

theorem convStep_frame (σ : FS) (f q : String) (h : q ≠ _prepare_wav_path f) :
    (convStep σ f).1.mtime q = σ.mtime q := by
  unfold convStep
  by_cases hc : needs_update σ f (_prepare_wav_path f) = false
  · simp [hc]
  · simp [hc, write_mtime_other _ _ _ h]

theorem convStep_inv (σ : FS) (f : String) (h : Inv σ) : Inv (convStep σ f).1 := by
  unfold convStep
  by_cases hc : needs_update σ f (_prepare_wav_path f) = false
  · simpa [hc] using h
  · simpa [hc] using inv_write _ _ h

theorem convStep_post (σ : FS) (f : String) (hinv : Inv σ)
    (hne : f ≠ _prepare_wav_path f) :
    needs_update (convStep σ f).1 f (_prepare_wav_path f) = false := by
  unfold convStep
  by_cases hc : needs_update σ f (_prepare_wav_path f) = false
  · simp [hc]
  · simp only [hc, if_false, Bool.false_eq_true]
    cases hsrc : σ.mtime f with
    | none => simp [needs_update, write_mtime_other _ _ _ hne, hsrc]
    | some ms =>
      have hms : ms < σ.clock := hinv f ms hsrc
      simp [needs_update, write_mtime_other _ _ _ hne, hsrc, write_mtime_self]
      omega

theorem transStep_frame (σ : FS) (w q : String) (h : q ≠ txtPathOf w) :
    (transStep σ w).1.mtime q = σ.mtime q := by
  unfold transStep
  by_cases hc : needs_update σ w (txtPathOf w) = false
  · simp [hc]
  · simp [hc, write_mtime_other _ _ _ h]

theorem transStep_inv (σ : FS) (w : String) (h : Inv σ) : Inv (transStep σ w).1 := by
  unfold transStep
  by_cases hc : needs_update σ w (txtPathOf w) = false
  · simpa [hc] using h
  · simpa [hc] using inv_write _ _ h

theorem transStep_post (σ : FS) (w : String) (hinv : Inv σ)
    (hne : w ≠ txtPathOf w) :
    needs_update (transStep σ w).1 w (txtPathOf w) = false := by
  unfold transStep
  by_cases hc : needs_update σ w (txtPathOf w) = false
  · simp [hc]
  · simp only [hc, if_false, Bool.false_eq_true]
    cases hsrc : σ.mtime w with
    | none => simp [needs_update, write_mtime_other _ _ _ hne, hsrc]
    | some ms =>
      have hms : ms < σ.clock := hinv w ms hsrc
      simp [needs_update, write_mtime_other _ _ _ hne, hsrc, write_mtime_self]
      omega

theorem convRun_frame (σ : FS) (files : List String) (q : String)
    (h : ∀ f ∈ files, q ≠ _prepare_wav_path f) :
    (convRun σ files).1.mtime q = σ.mtime q := by
  induction files generalizing σ with
  | nil => rfl
  | cons f rest ih =>
    show (convRun (convStep σ f).1 rest).1.mtime q = σ.mtime q
    rw [ih _ (fun g hg => h g (List.mem_cons_of_mem f hg)),
      convStep_frame σ f q (h f (List.mem_cons_self f rest))]

theorem convRun_inv (σ : FS) (files : List String) (h : Inv σ) :
    Inv (convRun σ files).1 := by
  induction files generalizing σ with
  | nil => exact h
  | cons f rest ih => exact ih _ (convStep_inv σ f h)

theorem transRun_frame (σ : FS) (ws : List String) (q : String)
    (h : ∀ w ∈ ws, q ≠ txtPathOf w) :
    (transRun σ ws).1.mtime q = σ.mtime q := by
  induction ws generalizing σ with
  | nil => rfl
  | cons w rest ih =>
    show (transRun (transStep σ w).1 rest).1.mtime q = σ.mtime q
    rw [ih _ (fun v hv => h v (List.mem_cons_of_mem w hv)),
      transStep_frame σ w q (h w (List.mem_cons_self w rest))]

theorem transRun_inv (σ : FS) (ws : List String) (h : Inv σ) :
    Inv (transRun σ ws).1 := by
  induction ws generalizing σ with
  | nil => exact h
  | cons w rest ih => exact ih _ (transStep_inv σ w h)

theorem convRun_post (σ : FS) (files : List String) (hinv : Inv σ)
    (hnd : files.Nodup)
    (hsw : ∀ f ∈ files, ∀ g ∈ files, f ≠ _prepare_wav_path g)
    (hww : ∀ f ∈ files, ∀ g ∈ files, f ≠ g →
      _prepare_wav_path f ≠ _prepare_wav_path g) :
    ∀ f ∈ files, needs_update (convRun σ files).1 f (_prepare_wav_path f) = false := by
  induction files generalizing σ with
  | nil => intro f hf; simp at hf
  | cons f0 rest ih =>
    obtain ⟨hf0r, hndr⟩ := List.nodup_cons.mp hnd
    intro f hf
    have hmem0 : f0 ∈ f0 :: rest := List.mem_cons_self f0 rest
    rcases List.mem_cons.mp hf with rfl | hfr
    · show needs_update (convRun (convStep σ f).1 rest).1 f (_prepare_wav_path f) = false
      have hpost : needs_update (convStep σ f).1 f (_prepare_wav_path f) = false :=
        convStep_post σ f hinv (hsw f hmem0 f hmem0)
      have hfq : (convRun (convStep σ f).1 rest).1.mtime f =
          (convStep σ f).1.mtime f :=
        convRun_frame _ rest f
          (fun g hg => hsw f hmem0 g (List.mem_cons_of_mem f hg))
      have hwq : (convRun (convStep σ f).1 rest).1.mtime (_prepare_wav_path f) =
          (convStep σ f).1.mtime (_prepare_wav_path f) :=
        convRun_frame _ rest _
          (fun g hg => hww f hmem0 g (List.mem_cons_of_mem f hg)
            (fun heq => hf0r (heq ▸ hg)))
      rw [needs_update_congr _ _ _ _ hfq hwq]
      exact hpost
    · exact ih (convStep σ f0).1 (convStep_inv σ f0 hinv) hndr
        (fun a ha b hb => hsw a (List.mem_cons_of_mem f0 ha)
          b (List.mem_cons_of_mem f0 hb))
        (fun a ha b hb => hww a (List.mem_cons_of_mem f0 ha)
          b (List.mem_cons_of_mem f0 hb))
        f hfr

theorem transRun_post (σ : FS) (ws : List String) (hinv : Inv σ)
    (hnd : ws.Nodup)
    (hvt : ∀ w ∈ ws, ∀ v ∈ ws, w ≠ txtPathOf v)
    (hti : ∀ w ∈ ws, ∀ v ∈ ws, w ≠ v → txtPathOf w ≠ txtPathOf v) :
    ∀ w ∈ ws, needs_update (transRun σ ws).1 w (txtPathOf w) = false := by
  induction ws generalizing σ with
  | nil => intro w hw; simp at hw
  | cons w0 rest ih =>
    obtain ⟨hw0r, hndr⟩ := List.nodup_cons.mp hnd
    intro w hw
    have hmem0 : w0 ∈ w0 :: rest := List.mem_cons_self w0 rest
    rcases List.mem_cons.mp hw with rfl | hwr
    · show needs_update (transRun (transStep σ w).1 rest).1 w (txtPathOf w) = false
      have hpost : needs_update (transStep σ w).1 w (txtPathOf w) = false :=
        transStep_post σ w hinv (hvt w hmem0 w hmem0)
      have hfq : (transRun (transStep σ w).1 rest).1.mtime w =
          (transStep σ w).1.mtime w :=
        transRun_frame _ rest w
          (fun v hv => hvt w hmem0 v (List.mem_cons_of_mem w hv))
      have htq : (transRun (transStep σ w).1 rest).1.mtime (txtPathOf w) =
          (transStep σ w).1.mtime (txtPathOf w) :=
        transRun_frame _ rest _
          (fun v hv => hti w hmem0 v (List.mem_cons_of_mem w hv)
            (fun heq => hw0r (heq ▸ hv)))
      rw [needs_update_congr _ _ _ _ hfq htq]
      exact hpost
    · exact ih (transStep σ w0).1 (transStep_inv σ w0 hinv) hndr
        (fun a ha b hb => hvt a (List.mem_cons_of_mem w0 ha)
          b (List.mem_cons_of_mem w0 hb))
        (fun a ha b hb => hti a (List.mem_cons_of_mem w0 ha)
          b (List.mem_cons_of_mem w0 hb))
        w hwr

theorem convRun_skip (σ : FS) (files : List String)
    (h : ∀ f ∈ files, needs_update σ f (_prepare_wav_path f) = false) :
    convRun σ files = (σ, 0) := by
  induction files with
  | nil => rfl
  | cons f rest ih =>
    have hstep : convStep σ f = (σ, false) := by
      unfold convStep
      simp [h f (List.mem_cons_self f rest)]
    simp [convRun, hstep, ih (fun g hg => h g (List.mem_cons_of_mem f hg))]

theorem transRun_skip (σ : FS) (ws : List String)
    (h : ∀ w ∈ ws, needs_update σ w (txtPathOf w) = false) :
    transRun σ ws = (σ, 0) := by
  induction ws with
  | nil => rfl
  | cons w rest ih =>
    have hstep : transStep σ w = (σ, false) := by
      unfold transStep
      simp [h w (List.mem_cons_self w rest)]
    simp [transRun, hstep, ih (fun v hv => h v (List.mem_cons_of_mem w hv))]

/-- Claim C5: rerunning the whole pipeline after a first successful run,
with no input file changed and no derived file modified in between,
performs zero conversions and zero model invocations and rewrites no
file: the second run returns the state unchanged.  The hypotheses say
that the external calls succeed, the starting state is well-formed, and
the input paths and the derived WAV/transcript paths are pairwise
distinct (true of the actual `resource/*.m4a` → `output/*.wav` →
`output/*.txt` layout). -/
theorem second_run_noop (ffok mok : String → Bool) (σ0 : FS) (files : List String)
    (hff : ∀ f, ffok f = true) (hmok : ∀ w, mok w = true)
    (hinv : Inv σ0) (hnd : files.Nodup)
    (hsw : ∀ f ∈ files, ∀ g ∈ files, f ≠ _prepare_wav_path g)
    (hst : ∀ f ∈ files, ∀ g ∈ files, f ≠ txtPathOf (_prepare_wav_path g))
    (hww : ∀ f ∈ files, ∀ g ∈ files, f ≠ g →
      _prepare_wav_path f ≠ _prepare_wav_path g)
    (htt : ∀ f ∈ files, ∀ g ∈ files, f ≠ g →
      txtPathOf (_prepare_wav_path f) ≠ txtPathOf (_prepare_wav_path g))
    (hwt : ∀ f ∈ files, ∀ g ∈ files,
      _prepare_wav_path f ≠ txtPathOf (_prepare_wav_path g))
    (σ1 : FS) (n1 t1 : Nat)
    (hrun1 : mainModel ffok mok σ0 files = Except.ok (σ1, n1, t1)) :
    mainModel ffok mok σ1 files = Except.ok (σ1, 0, 0) := by
  rw [mainModel_eq ffok mok hff hmok σ0 files, Except.ok.injEq, Prod.mk.injEq,
    Prod.mk.injEq] at hrun1
  obtain ⟨hA, _, _⟩ := hrun1
  subst hA
  have hcinv : Inv (convRun σ0 files).1 := convRun_inv σ0 files hinv
  have hconvpost0 : ∀ f ∈ files,
      needs_update (convRun σ0 files).1 f (_prepare_wav_path f) = false :=
    convRun_post σ0 files hinv hnd hsw hww
  have htframe : ∀ q, (∀ g ∈ files, q ≠ txtPathOf (_prepare_wav_path g)) →
      (transRun (convRun σ0 files).1 (files.map _prepare_wav_path)).1.mtime q =
        (convRun σ0 files).1.mtime q := by
    intro q hq
    apply transRun_frame
    intro w hw
    obtain ⟨g, hg, rfl⟩ := List.mem_map.mp hw
    exact hq g hg
  have hconvpost : ∀ f ∈ files,
      needs_update
        (transRun (convRun σ0 files).1 (files.map _prepare_wav_path)).1
        f (_prepare_wav_path f) = false := by
    intro f hf
    rw [needs_update_congr _ _ f (_prepare_wav_path f)
      (htframe f (fun g hg => hst f hf g hg))
      (htframe (_prepare_wav_path f) (fun g hg => hwt f hf g hg))]
    exact hconvpost0 f hf
  have hwsnd : (files.map _prepare_wav_path).Nodup := by
    refine List.Nodup.map_on ?_ hnd
    intro x hx y hy hpp
    by_contra hne
    exact hww x hx y hy hne hpp
  have hvt : ∀ w ∈ files.map _prepare_wav_path,
      ∀ v ∈ files.map _prepare_wav_path, w ≠ txtPathOf v := by
    intro w hw v hv
    obtain ⟨f, hf, rfl⟩ := List.mem_map.mp hw
    obtain ⟨g, hg, rfl⟩ := List.mem_map.mp hv
    exact hwt f hf g hg
  have hti : ∀ w ∈ files.map _prepare_wav_path,
      ∀ v ∈ files.map _prepare_wav_path, w ≠ v → txtPathOf w ≠ txtPathOf v := by
    intro w hw v hv hne
    obtain ⟨f, hf, rfl⟩ := List.mem_map.mp hw
    obtain ⟨g, hg, rfl⟩ := List.mem_map.mp hv
    exact htt f hf g hg (fun heq => hne (heq ▸ rfl))
  have htrpost : ∀ w ∈ files.map _prepare_wav_path,
      needs_update
        (transRun (convRun σ0 files).1 (files.map _prepare_wav_path)).1
        w (txtPathOf w) = false :=
    transRun_post (convRun σ0 files).1 (files.map _prepare_wav_path)
      hcinv hwsnd hvt hti
  have hcskip : convRun
      (transRun (convRun σ0 files).1 (files.map _prepare_wav_path)).1 files =
      ((transRun (convRun σ0 files).1 (files.map _prepare_wav_path)).1, 0) :=
    convRun_skip _ files hconvpost
  have htskip : transRun
      (transRun (convRun σ0 files).1 (files.map _prepare_wav_path)).1
      (files.map _prepare_wav_path) =
      ((transRun (convRun σ0 files).1 (files.map _prepare_wav_path)).1, 0) :=
    transRun_skip _ (files.map _prepare_wav_path) htrpost
  rw [mainModel_eq ffok mok hff hmok]
  rw [hcskip]
  simp only []
  rw [htskip]

theorem second_run_noop_witness :
    mainModel (fun _ => true) (fun _ => true)
      (transRun (convRun fsA ["resource/a.m4a"]).1
        (["resource/a.m4a"].map _prepare_wav_path)).1 ["resource/a.m4a"] =
      Except.ok
        ((transRun (convRun fsA ["resource/a.m4a"]).1
          (["resource/a.m4a"].map _prepare_wav_path)).1, 0, 0) :=
  second_run_noop (fun _ => true) (fun _ => true) fsA ["resource/a.m4a"]
    (fun _ => rfl) (fun _ => rfl) fsA_inv (by decide) (by decide) (by decide)
    (by decide) (by decide) (by decide) _ _ _
    (mainModel_eq (fun _ => true) (fun _ => true) (fun _ => rfl) (fun _ => rfl)
      fsA ["resource/a.m4a"])

end Transcription
